import Mathlib

/-!
Verification of `markdown2html.py`, a line-oriented Markdown→HTML converter.

The development shallowly embeds the script's core:
* `convert_bold_emphasis` — the inline transformer: four sequential global
  non-greedy substitutions (`[[…]]` → MD5 hex digest, `((…))` → delete `c`/`C`,
  `**…**` → `<b>…</b>`, `__…__` → `<em>…</em>`);
* `convert_heading` — heading lines;
* `parse` — the cursor-driven block parser of `convert_markdown_to_html`.

Strings are modelled as `List Char`; machine words in MD5 are `Nat` reduced
mod `2^32`.
-/

namespace Md2Html

/-! ### MD5 (RFC 1321), needed by the `[[…]]` hash substitution -/

/-- Constant `2^32`, the word modulus of MD5. -/
def u32 : Nat := 4294967296

/-- Addition of 32-bit words. -/
def add32 (a b : Nat) : Nat := (a + b) % u32

/-- Bitwise complement of a 32-bit word. -/
def not32 (a : Nat) : Nat := a ^^^ 4294967295

/-- Left rotation of a 32-bit word by `s` bits. -/
def rotl32 (x s : Nat) : Nat := ((x <<< s) % u32) ||| (x >>> (32 - s))

/-- The 64 sine-derived round constants `K[i] = ⌊|sin(i+1)|·2^32⌋` of MD5. -/
def md5K : List Nat :=
  [0xd76aa478, 0xe8c7b756, 0x242070db, 0xc1bdceee,
   0xf57c0faf, 0x4787c62a, 0xa8304613, 0xfd469501,
   0x698098d8, 0x8b44f7af, 0xffff5bb1, 0x895cd7be,
   0x6b901122, 0xfd987193, 0xa679438e, 0x49b40821,
   0xf61e2562, 0xc040b340, 0x265e5a51, 0xe9b6c7aa,
   0xd62f105d, 0x02441453, 0xd8a1e681, 0xe7d3fbc8,
   0x21e1cde6, 0xc33707d6, 0xf4d50d87, 0x455a14ed,
   0xa9e3e905, 0xfcefa3f8, 0x676f02d9, 0x8d2a4c8a,
   0xfffa3942, 0x8771f681, 0x6d9d6122, 0xfde5380c,
   0xa4beea44, 0x4bdecfa9, 0xf6bb4b60, 0xbebfbc70,
   0x289b7ec6, 0xeaa127fa, 0xd4ef3085, 0x04881d05,
   0xd9d4d039, 0xe6db99e5, 0x1fa27cf8, 0xc4ac5665,
   0xf4292244, 0x432aff97, 0xab9423a7, 0xfc93a039,
   0x655b59c3, 0x8f0ccc92, 0xffeff47d, 0x85845dd1,
   0x6fa87e4f, 0xfe2ce6e0, 0xa3014314, 0x4e0811a1,
   0xf7537e82, 0xbd3af235, 0x2ad7d2bb, 0xeb86d391]

/-- The per-round left-rotation amounts of MD5. -/
def md5S : List Nat :=
  [7, 12, 17, 22, 7, 12, 17, 22, 7, 12, 17, 22, 7, 12, 17, 22,
   5, 9, 14, 20, 5, 9, 14, 20, 5, 9, 14, 20, 5, 9, 14, 20,
   4, 11, 16, 23, 4, 11, 16, 23, 4, 11, 16, 23, 4, 11, 16, 23,
   6, 10, 15, 21, 6, 10, 15, 21, 6, 10, 15, 21, 6, 10, 15, 21]

/-- Extract `k` bytes of `n`, little-endian. -/
def leBytes (n : Nat) : Nat → List Nat
  | 0 => []
  | k + 1 => (n % 256) :: leBytes (n / 256) k

/-- Read a little-endian byte list as a number. -/
def leWord (bs : List Nat) : Nat := bs.foldr (fun b acc => b + 256 * acc) 0

/-- MD5 padding: `0x80`, zeros to 56 mod 64, then the 64-bit bit length. -/
def md5Pad (msg : List Nat) : List Nat :=
  let len := msg.length
  let zeros := (119 - len % 64) % 64
  msg ++ 128 :: List.replicate zeros 0 ++ leBytes ((len * 8) % (u32 * u32)) 8

/-- Split a byte list into 64-byte blocks (`fuel` bounds the number of blocks;
structural recursion on `fuel` keeps the definition kernel-reducible). -/
def chunks64Go : Nat → List Nat → List (List Nat)
  | _, [] => []
  | 0, _ :: _ => []
  | fuel + 1, b :: rest => ((b :: rest).take 64) :: chunks64Go fuel ((b :: rest).drop 64)

/-- Split a byte list into 64-byte blocks. -/
def chunks64 (l : List Nat) : List (List Nat) := chunks64Go l.length l

/-- Round mixing function of MD5 (round selected by `i`). -/
def md5F (i b c d : Nat) : Nat :=
  if i < 16 then (b &&& c) ||| (not32 b &&& d)
  else if i < 32 then (d &&& b) ||| (not32 d &&& c)
  else if i < 48 then b ^^^ c ^^^ d
  else c ^^^ (b ||| not32 d)

/-- Message-word schedule of MD5. -/
def md5G (i : Nat) : Nat :=
  if i < 16 then i
  else if i < 32 then (5 * i + 1) % 16
  else if i < 48 then (3 * i + 5) % 16
  else (7 * i) % 16

/-- The `g`-th 32-bit little-endian word of a 64-byte block. -/
def mWord (block : List Nat) (g : Nat) : Nat := leWord ((block.drop (4 * g)).take 4)

/-- One of the 64 rounds of the MD5 compression function. -/
def md5Step (block : List Nat) (st : Nat × Nat × Nat × Nat) (i : Nat) :
    Nat × Nat × Nat × Nat :=
  let (a, b, c, d) := st
  let f := add32 (add32 (add32 (md5F i b c d) a) (md5K.getD i 0)) (mWord block (md5G i))
  (d, add32 b (rotl32 f (md5S.getD i 0)), b, c)

/-- Process one 64-byte block: 64 rounds, then add the previous state. -/
def md5Block (st : Nat × Nat × Nat × Nat) (block : List Nat) : Nat × Nat × Nat × Nat :=
  let (a, b, c, d) := (List.range 64).foldl (md5Step block) st
  (add32 st.1 a, add32 st.2.1 b, add32 st.2.2.1 c, add32 st.2.2.2 d)

/-- MD5 digest (16 bytes) of a byte list. -/
def md5Bytes (msg : List Nat) : List Nat :=
  let st := (chunks64 (md5Pad msg)).foldl md5Block
    (0x67452301, 0xefcdab89, 0x98badcfe, 0x10325476)
  leBytes st.1 4 ++ leBytes st.2.1 4 ++ leBytes st.2.2.1 4 ++ leBytes st.2.2.2 4

/-- Lowercase hexadecimal digit. -/
def hexChar (n : Nat) : Char := if n < 10 then Char.ofNat (48 + n) else Char.ofNat (87 + n)

/-- Two lowercase hex digits of a byte. -/
def byteHex (b : Nat) : List Char := [hexChar (b / 16), hexChar (b % 16)]

/-- UTF-8 encoding of one character (Python's `str.encode()`). -/
def utf8Encode (c : Char) : List Nat :=
  let n := c.toNat
  if n < 128 then [n]
  else if n < 2048 then [192 + n / 64, 128 + n % 64]
  else if n < 65536 then [224 + n / 4096, 128 + (n / 64) % 64, 128 + n % 64]
  else [240 + n / 262144, 128 + (n / 4096) % 64, 128 + (n / 64) % 64, 128 + n % 64]

/-- UTF-8 bytes of a string. -/
def strBytes (s : List Char) : List Nat := (s.map utf8Encode).flatten

/-- Python `hashlib.md5(content.encode()).hexdigest()`: lowercase hex MD5 of a string. -/
def md5Hex (s : List Char) : List Char := ((md5Bytes (strBytes s)).map byteHex).flatten

set_option maxRecDepth 10000 in
example : md5Hex "Hello".data = "8b1a9953c4611296a827abf8c47804d7".data := by decide

/-! ### Non-greedy global substitution, the engine behind `re.sub(r'oo(.*?)cc', f, ·)`

All four patterns of the script have the shape "doubled opener, shortest inner,
doubled closer", with `.` not matching a newline.  `findClose` finds the first
doubled closer (failing on a newline, as `.*?` cannot cross one); `subPat`
scans left to right, replacing each non-overlapping match and resuming after
it, advancing one character when no match starts at the current position. -/

/-- Split `l` at the first occurrence of the doubled closer `cc`:
`some (inner, post)` with `l = inner ++ [c, c] ++ post`, `none` when no closer
is reachable (end of string, or a newline intervenes — `.*?` cannot match
a newline). -/
def findClose (c : Char) : List Char → Option (List Char × List Char)
  | [] => none
  | [_] => none
  | x :: y :: rest =>
    if x = c ∧ y = c then some ([], rest)
    else if x = '\n' then none
    else
      match findClose c (y :: rest) with
      | some (pre, post) => some (x :: pre, post)
      | none => none

theorem findClose_length (c : Char) :
    ∀ l pre post, findClose c l = some (pre, post) → post.length + 2 ≤ l.length := by
  intro l
  induction l with
  | nil => intro pre post h; simp [findClose] at h
  | cons x rest ih =>
    intro pre post h
    match rest with
    | [] => simp [findClose] at h
    | y :: rest2 =>
      simp only [findClose] at h
      split at h
      · cases h
        simp
      · split at h
        · exact absurd h (by simp)
        · cases hf : findClose c (y :: rest2) with
          | none => rw [hf] at h; exact absurd h (by simp)
          | some pr =>
            rw [hf] at h
            cases h
            have := ih pr.1 pr.2 (by rw [hf])
            simp only [List.length_cons] at this ⊢
            omega

/-- One global non-greedy replacement pass: at each position, if the doubled
opener `oo` starts here and a closer is reachable, replace `f inner` and
resume after the match; otherwise emit one character and advance.  `fuel`
(any bound `≥` the list length) makes the recursion structural. -/
def subPatGo (o c : Char) (f : List Char → List Char) : Nat → List Char → List Char
  | _, [] => []
  | _, [x] => [x]
  | 0, x :: y :: rest => x :: y :: rest
  | fuel + 1, x :: y :: rest =>
    if x = o ∧ y = o then
      match findClose c rest with
      | some (inner, post) => f inner ++ subPatGo o c f fuel post
      | none => x :: subPatGo o c f fuel (y :: rest)
    else x :: subPatGo o c f fuel (y :: rest)

/-- Model of `re.sub` with pattern `oo(.*?)cc` and replacement function `f`. -/
def subPat (o c : Char) (f : List Char → List Char) (l : List Char) : List Char :=
  subPatGo o c f l.length l

theorem subPatGo_congr (o c : Char) (f : List Char → List Char) :
    ∀ fuel₁ fuel₂ l, l.length ≤ fuel₁ → l.length ≤ fuel₂ →
      subPatGo o c f fuel₁ l = subPatGo o c f fuel₂ l := by
  intro fuel₁
  induction fuel₁ with
  | zero =>
    intro fuel₂ l h1 h2
    have : l = [] := by cases l <;> simp_all
    subst this
    simp [subPatGo]
  | succ n ih =>
    intro fuel₂ l h1 h2
    match l with
    | [] => simp [subPatGo]
    | [x] => cases fuel₂ <;> simp [subPatGo]
    | x :: y :: rest =>
      simp only [List.length_cons] at h1 h2
      obtain ⟨m, rfl⟩ : ∃ m, fuel₂ = m + 1 := by
        cases fuel₂
        · omega
        · exact ⟨_, rfl⟩
      simp only [subPatGo]
      split
      · cases hf : findClose c rest with
        | none =>
          simp only [hf]
          rw [ih m (y :: rest) (by simp; omega) (by simp; omega)]
        | some pr =>
          simp only [hf]
          have hlen := findClose_length c rest pr.1 pr.2 (by rw [hf])
          rw [ih m pr.2 (by omega) (by omega)]
      · rw [ih m (y :: rest) (by simp; omega) (by simp; omega)]

theorem subPat_cons₂ (o c : Char) (f : List Char → List Char) (x y : Char)
    (rest : List Char) :
    subPat o c f (x :: y :: rest) =
      if x = o ∧ y = o then
        match findClose c rest with
        | some (inner, post) => f inner ++ subPat o c f post
        | none => x :: subPat o c f (y :: rest)
      else x :: subPat o c f (y :: rest) := by
  show subPatGo o c f (rest.length + 1 + 1) (x :: y :: rest) = _
  simp only [subPatGo]
  split
  · cases hf : findClose c rest with
    | none => simp [subPat]
    | some pr =>
      simp only [hf]
      have hlen := findClose_length c rest pr.1 pr.2 (by rw [hf])
      rw [subPatGo_congr o c f (rest.length + 1) pr.2.length pr.2 (by omega) le_rfl]
      rfl
  · rfl

/-! ### The inline transformer `convert_bold_emphasis` (lines 165–194) -/

/-- Function `md5_replace` (lines 175–177): a `[[inner]]` match becomes the lowercase
hex MD5 digest of `inner`'s UTF-8 bytes. -/
def md5_replace (inner : List Char) : List Char := md5Hex inner

/-- Function `remove_c` (lines 182–184): `re.sub(r'[cC]', '', content)` — delete every
ASCII `c`/`C`, keep everything else in order. -/
def remove_c (inner : List Char) : List Char :=
  inner.filter (fun ch => !(ch == 'c' || ch == 'C'))

/-- Line 179: `text = re.sub(r'\[\[(.*?)\]\]', md5_replace, text)`. -/
def subMd5 (text : List Char) : List Char := subPat '[' ']' md5_replace text

/-- Line 186: `text = re.sub(r'\(\((.*?)\)\)', remove_c, text)`. -/
def subParens (text : List Char) : List Char := subPat '(' ')' remove_c text

/-- Line 189: `text = re.sub(r'\*\*(.*?)\*\*', r'<b>\1</b>', text)`. -/
def subBold (text : List Char) : List Char :=
  subPat '*' '*' (fun inner => "<b>".data ++ inner ++ "</b>".data) text

/-- Line 192: `text = re.sub(r'__(.*?)__', r'<em>\1</em>', text)`. -/
def subEm (text : List Char) : List Char :=
  subPat '_' '_' (fun inner => "<em>".data ++ inner ++ "</em>".data) text

/-- Function `convert_bold_emphasis` (lines 165–194): the four global substitutions
applied sequentially, each over the entire output of the previous one. -/
def convert_bold_emphasis (text : List Char) : List Char :=
  subEm (subBold (subParens (subMd5 text)))

/-- The inline transformer at the `String` level. -/
def transform (s : String) : String := String.mk (convert_bold_emphasis s.data)

example : transform "**x**" = "<b>x</b>" := by decide
example : transform "__x__" = "<em>x</em>" := by decide
example : transform "((Core))" = "ore" := by decide
example : transform "***a***" = "<b>*a</b>*" := by decide
example : transform "((**c**))" = "<b></b>" := by decide

/-! ### The block parser of `convert_markdown_to_html` (lines 51–126)

Input lines are modelled with their trailing newline already removed (the
script applies `rstrip('\n')` at every access, and `str.startswith` is
unaffected by a trailing newline). -/

/-- Python `str.strip()`'s whitespace, restricted to ASCII
(`' '`, `\t`, `\n`, `\r`, `\x0b`, `\x0c`). -/
def pyWhitespace (ch : Char) : Bool :=
  ch == ' ' || ch == '\t' || ch == '\n' || ch == '\r' ||
    ch == Char.ofNat 11 || ch == Char.ofNat 12

/-- Python `str.strip()`: drop leading and trailing whitespace. -/
def pyStrip (s : List Char) : List Char :=
  ((s.dropWhile pyWhitespace).reverse.dropWhile pyWhitespace).reverse

/-- Line 62: `not line.strip()` — the blank-line test. -/
def isBlank (l : List Char) : Bool := (pyStrip l).isEmpty

/-- Line 67: `line.startswith('#')`. -/
def startsWithHash : List Char → Bool
  | x :: _ => x == '#'
  | [] => false

/-- Two-character prefix test (`str.startswith` with a 2-character literal). -/
def startsWith2 (a b : Char) : List Char → Bool
  | x :: y :: _ => x == a && y == b
  | _ => false

/-- Line 72: `line.startswith('- ')`. -/
def isUl (l : List Char) : Bool := startsWith2 '-' ' ' l

/-- Line 86: `line.startswith('* ')`. -/
def isOl (l : List Char) : Bool := startsWith2 '*' ' ' l

/-- Lines 104–108: the paragraph-continuation predicate — non-blank and not
starting with `#`, `"- "`, or `"* "`. -/
def isPara (l : List Char) : Bool :=
  !isBlank l && !startsWithHash l && !isUl l && !isOl l

/-- Lines 147–153: count of consecutive leading `#` characters. -/
def countHash (l : List Char) : Nat := (l.takeWhile (· == '#')).length

/-- Function `convert_heading` (lines 138–162): `<h{level}>{text}</h{level}>` with
`level` the leading-`#` count (no clamp) and `text` the remainder stripped
and inline-transformed. -/
def convert_heading (line : List Char) : List Char :=
  let level := countHash line
  let text := convert_bold_emphasis (pyStrip (line.drop level))
  "<h".data ++ (toString level).data ++ ">".data ++ text ++
    "</h".data ++ (toString level).data ++ ">".data

/-- Lines 78–80 / 92–94: a list item — drop the 2-character prefix, strip,
inline-transform, wrap in `<li>…</li>`. -/
def mkListItem (l : List Char) : List Char :=
  "<li>".data ++ convert_bold_emphasis (pyStrip (l.drop 2)) ++ "</li>".data

/-- Lines 117–121: paragraph body — the first line's transformed text, then
`<br/>` before each subsequent line's transformed text. -/
def paraBody : List (List Char) → List (List Char)
  | [] => []
  | first :: rest =>
    convert_bold_emphasis first ::
      rest.flatMap (fun l => ["<br/>".data, convert_bold_emphasis l])

/-- The scan loop of `convert_markdown_to_html` (lines 58–126), with the
cursor `i` replaced by consuming the list.  In the list branches the `while`
re-tests the line at the current cursor, which the guard already showed to
satisfy the run predicate, so the run is `l :: rest.takeWhile _` and the
cursor resumes at `rest.dropWhile _`; likewise for paragraphs, whose collected
lines always include the current line (making the script's empty-collection
fallback at line 126 unreachable).  `fuel` (any bound `≥` the number of
lines) makes the recursion structural. -/
def parseGo : Nat → List (List Char) → List (List Char)
  | _, [] => []
  | 0, l :: rest => l :: rest
  | fuel + 1, l :: rest =>
    if isBlank l then parseGo fuel rest
    else if startsWithHash l then convert_heading l :: parseGo fuel rest
    else if isUl l then
      "<ul>".data :: (l :: rest.takeWhile isUl).map mkListItem ++
        "</ul>".data :: parseGo fuel (rest.dropWhile isUl)
    else if isOl l then
      "<ol>".data :: (l :: rest.takeWhile isOl).map mkListItem ++
        "</ol>".data :: parseGo fuel (rest.dropWhile isOl)
    else
      "<p>".data :: paraBody (l :: rest.takeWhile isPara) ++
        "</p>".data :: parseGo fuel (rest.dropWhile isPara)

/-- The block parser: input lines to HTML fragments. -/
def parse (lines : List (List Char)) : List (List Char) :=
  parseGo lines.length lines

/-- The block parser at the `String` level. -/
def parseLines (lines : List String) : List String :=
  (parse (lines.map String.data)).map String.mk

example : parseLines ["# Title"] = ["<h1>Title</h1>"] := by decide
example : parseLines ["- a", "- b"] = ["<ul>", "<li>a</li>", "<li>b</li>", "</ul>"] := by
  decide
example : parseLines ["* a", "* b"] = ["<ol>", "<li>a</li>", "<li>b</li>", "</ol>"] := by
  decide
example : parseLines ["", "line one", "line two", ""] =
    ["<p>", "line one", "<br/>", "line two", "</p>"] := by decide

/-! ### Unfolding equations for `parse` -/

theorem length_dropWhile_le (p : List Char → Bool) (l : List (List Char)) :
    (l.dropWhile p).length ≤ l.length :=
  (List.dropWhile_sublist p).length_le

theorem parseGo_congr :
    ∀ fuel₁ fuel₂ lines, lines.length ≤ fuel₁ → lines.length ≤ fuel₂ →
      parseGo fuel₁ lines = parseGo fuel₂ lines := by
  intro fuel₁
  induction fuel₁ with
  | zero =>
    intro fuel₂ lines h1 h2
    have : lines = [] := by cases lines <;> simp_all
    subst this
    simp [parseGo]
  | succ n ih =>
    intro fuel₂ lines h1 h2
    match lines with
    | [] => simp [parseGo]
    | l :: rest =>
      simp only [List.length_cons] at h1 h2
      obtain ⟨m, rfl⟩ : ∃ m, fuel₂ = m + 1 := by
        cases fuel₂
        · omega
        · exact ⟨_, rfl⟩
      have hrest : rest.length ≤ n := by omega
      have hrest' : rest.length ≤ m := by omega
      simp only [parseGo]
      split_ifs
      · exact ih m rest hrest hrest'
      · rw [ih m rest hrest hrest']
      · rw [ih m (rest.dropWhile isUl) (le_trans (length_dropWhile_le _ _) hrest)
          (le_trans (length_dropWhile_le _ _) hrest')]
      · rw [ih m (rest.dropWhile isOl) (le_trans (length_dropWhile_le _ _) hrest)
          (le_trans (length_dropWhile_le _ _) hrest')]
      · rw [ih m (rest.dropWhile isPara) (le_trans (length_dropWhile_le _ _) hrest)
          (le_trans (length_dropWhile_le _ _) hrest')]

theorem parse_nil : parse [] = [] := rfl

theorem parse_cons (l : List Char) (rest : List (List Char)) :
    parse (l :: rest) =
      if isBlank l then parse rest
      else if startsWithHash l then convert_heading l :: parse rest
      else if isUl l then
        "<ul>".data :: (l :: rest.takeWhile isUl).map mkListItem ++
          "</ul>".data :: parse (rest.dropWhile isUl)
      else if isOl l then
        "<ol>".data :: (l :: rest.takeWhile isOl).map mkListItem ++
          "</ol>".data :: parse (rest.dropWhile isOl)
      else
        "<p>".data :: paraBody (l :: rest.takeWhile isPara) ++
          "</p>".data :: parse (rest.dropWhile isPara) := by
  show parseGo (rest.length + 1) (l :: rest) = _
  simp only [parseGo]
  split_ifs
  · rfl
  · rfl
  · rw [parseGo_congr rest.length (rest.dropWhile isUl).length (rest.dropWhile isUl)
      (length_dropWhile_le _ _) le_rfl]
    rfl
  · rw [parseGo_congr rest.length (rest.dropWhile isOl).length (rest.dropWhile isOl)
      (length_dropWhile_le _ _) le_rfl]
    rfl
  · rw [parseGo_congr rest.length (rest.dropWhile isPara).length (rest.dropWhile isPara)
      (length_dropWhile_le _ _) le_rfl]
    rfl

/-! ### Line-classification facts -/

theorem mem_dropWhile_of_mem {p : Char → Bool} {l : List Char} {x : Char}
    (hx : x ∈ l) (hpx : p x = false) : x ∈ l.dropWhile p := by
  rw [← List.takeWhile_append_dropWhile (p := p) (l := l)] at hx
  rcases List.mem_append.mp hx with h | h
  · exact absurd (List.mem_takeWhile_imp h) (by simp [hpx])
  · exact h

theorem isBlank_eq_false_of_mem {l : List Char} {x : Char}
    (hx : x ∈ l) (hw : pyWhitespace x = false) : isBlank l = false := by
  have h1 : x ∈ l.dropWhile pyWhitespace := mem_dropWhile_of_mem hx hw
  have h2 : x ∈ (l.dropWhile pyWhitespace).reverse := by simpa using h1
  have h3 := mem_dropWhile_of_mem h2 hw
  simp only [isBlank, pyStrip, List.isEmpty_eq_false, ne_eq, List.reverse_eq_nil_iff]
  intro hnil
  rw [hnil] at h3
  simp at h3

theorem isUl_not_blank {l : List Char} (h : isUl l = true) : isBlank l = false := by
  match l with
  | [] => simp [isUl, startsWith2] at h
  | [_] => simp [isUl, startsWith2] at h
  | x :: y :: t =>
    simp only [isUl, startsWith2, Bool.and_eq_true, beq_iff_eq] at h
    obtain ⟨rfl, rfl⟩ := h
    exact isBlank_eq_false_of_mem (List.mem_cons_self _ _) (by decide)

theorem isOl_not_blank {l : List Char} (h : isOl l = true) : isBlank l = false := by
  match l with
  | [] => simp [isOl, startsWith2] at h
  | [_] => simp [isOl, startsWith2] at h
  | x :: y :: t =>
    simp only [isOl, startsWith2, Bool.and_eq_true, beq_iff_eq] at h
    obtain ⟨rfl, rfl⟩ := h
    exact isBlank_eq_false_of_mem (List.mem_cons_self _ _) (by decide)

theorem hash_not_blank {l : List Char} (h : startsWithHash l = true) :
    isBlank l = false := by
  match l with
  | [] => simp [startsWithHash] at h
  | x :: t =>
    simp only [startsWithHash, beq_iff_eq] at h
    subst h
    exact isBlank_eq_false_of_mem (List.mem_cons_self _ _) (by decide)

theorem isUl_not_hash {l : List Char} (h : isUl l = true) :
    startsWithHash l = false := by
  match l with
  | [] => simp [isUl, startsWith2] at h
  | [_] => simp [isUl, startsWith2] at h
  | x :: y :: t =>
    simp only [isUl, startsWith2, Bool.and_eq_true, beq_iff_eq] at h
    obtain ⟨rfl, rfl⟩ := h
    simp [startsWithHash]

theorem isOl_not_hash {l : List Char} (h : isOl l = true) :
    startsWithHash l = false := by
  match l with
  | [] => simp [isOl, startsWith2] at h
  | [_] => simp [isOl, startsWith2] at h
  | x :: y :: t =>
    simp only [isOl, startsWith2, Bool.and_eq_true, beq_iff_eq] at h
    obtain ⟨rfl, rfl⟩ := h
    simp [startsWithHash]

theorem isOl_not_ul {l : List Char} (h : isOl l = true) : isUl l = false := by
  match l with
  | [] => simp [isOl, startsWith2] at h
  | [_] => simp [isOl, startsWith2] at h
  | x :: y :: t =>
    simp only [isOl, startsWith2, Bool.and_eq_true, beq_iff_eq] at h
    obtain ⟨rfl, rfl⟩ := h
    simp [isUl, startsWith2]

theorem isPara_not_blank {l : List Char} (h : isPara l = true) : isBlank l = false := by
  simp only [isPara, Bool.and_eq_true, Bool.not_eq_true'] at h
  exact h.1.1.1

/-! ### Block decomposition

`blocks` records which lines the parser groups into which block; `renderBlock`
renders one block.  `parse` is proved equal to rendering the blocks, and the
blocks are proved to partition exactly the non-blank input lines in order. -/

/-- A block-level unit: heading, unordered list, ordered list, or paragraph. -/
inductive Block where
  | heading (line : List Char)
  | ulist (items : List (List Char))
  | olist (items : List (List Char))
  | para (ls : List (List Char))
deriving DecidableEq

/-- The grouping the parser's scan performs (same recursion as `parseGo`). -/
def blocksGo : Nat → List (List Char) → List Block
  | _, [] => []
  | 0, _ :: _ => []
  | fuel + 1, l :: rest =>
    if isBlank l then blocksGo fuel rest
    else if startsWithHash l then .heading l :: blocksGo fuel rest
    else if isUl l then
      .ulist (l :: rest.takeWhile isUl) :: blocksGo fuel (rest.dropWhile isUl)
    else if isOl l then
      .olist (l :: rest.takeWhile isOl) :: blocksGo fuel (rest.dropWhile isOl)
    else
      .para (l :: rest.takeWhile isPara) :: blocksGo fuel (rest.dropWhile isPara)

/-- The block decomposition of the input lines. -/
def blocks (lines : List (List Char)) : List Block := blocksGo lines.length lines

/-- The HTML fragments one block is rendered to. -/
def renderBlock : Block → List (List Char)
  | .heading l => [convert_heading l]
  | .ulist items => "<ul>".data :: items.map mkListItem ++ ["</ul>".data]
  | .olist items => "<ol>".data :: items.map mkListItem ++ ["</ol>".data]
  | .para ls => "<p>".data :: paraBody ls ++ ["</p>".data]

/-- The input lines a block consumed. -/
def blockLines : Block → List (List Char)
  | .heading l => [l]
  | .ulist items => items
  | .olist items => items
  | .para ls => ls

theorem blocksGo_congr :
    ∀ fuel₁ fuel₂ lines, lines.length ≤ fuel₁ → lines.length ≤ fuel₂ →
      blocksGo fuel₁ lines = blocksGo fuel₂ lines := by
  intro fuel₁
  induction fuel₁ with
  | zero =>
    intro fuel₂ lines h1 h2
    have : lines = [] := by cases lines <;> simp_all
    subst this
    simp [blocksGo]
  | succ n ih =>
    intro fuel₂ lines h1 h2
    match lines with
    | [] => simp [blocksGo]
    | l :: rest =>
      simp only [List.length_cons] at h1 h2
      obtain ⟨m, rfl⟩ : ∃ m, fuel₂ = m + 1 := by
        cases fuel₂
        · omega
        · exact ⟨_, rfl⟩
      have hrest : rest.length ≤ n := by omega
      have hrest' : rest.length ≤ m := by omega
      simp only [blocksGo]
      split_ifs
      · exact ih m rest hrest hrest'
      · rw [ih m rest hrest hrest']
      · rw [ih m (rest.dropWhile isUl) (le_trans (length_dropWhile_le _ _) hrest)
          (le_trans (length_dropWhile_le _ _) hrest')]
      · rw [ih m (rest.dropWhile isOl) (le_trans (length_dropWhile_le _ _) hrest)
          (le_trans (length_dropWhile_le _ _) hrest')]
      · rw [ih m (rest.dropWhile isPara) (le_trans (length_dropWhile_le _ _) hrest)
          (le_trans (length_dropWhile_le _ _) hrest')]

theorem blocks_nil : blocks [] = [] := rfl

theorem blocks_cons (l : List Char) (rest : List (List Char)) :
    blocks (l :: rest) =
      if isBlank l then blocks rest
      else if startsWithHash l then .heading l :: blocks rest
      else if isUl l then
        .ulist (l :: rest.takeWhile isUl) :: blocks (rest.dropWhile isUl)
      else if isOl l then
        .olist (l :: rest.takeWhile isOl) :: blocks (rest.dropWhile isOl)
      else
        .para (l :: rest.takeWhile isPara) :: blocks (rest.dropWhile isPara) := by
  show blocksGo (rest.length + 1) (l :: rest) = _
  simp only [blocksGo]
  split_ifs
  · rfl
  · rfl
  · rw [blocksGo_congr rest.length (rest.dropWhile isUl).length (rest.dropWhile isUl)
      (length_dropWhile_le _ _) le_rfl]
    rfl
  · rw [blocksGo_congr rest.length (rest.dropWhile isOl).length (rest.dropWhile isOl)
      (length_dropWhile_le _ _) le_rfl]
    rfl
  · rw [blocksGo_congr rest.length (rest.dropWhile isPara).length (rest.dropWhile isPara)
      (length_dropWhile_le _ _) le_rfl]
    rfl

theorem parse_eq_blocks (lines : List (List Char)) :
    parse lines = (blocks lines).flatMap renderBlock := by
  have H : ∀ n (ls : List (List Char)), ls.length ≤ n →
      parse ls = (blocks ls).flatMap renderBlock := by
    intro n
    induction n with
    | zero =>
      intro ls h
      have : ls = [] := by cases ls <;> simp_all
      subst this
      rfl
    | succ n ih =>
      intro ls h
      match ls with
      | [] => rfl
      | l :: rest =>
        simp only [List.length_cons] at h
        have hrest : rest.length ≤ n := by omega
        rw [parse_cons, blocks_cons]
        split_ifs
        · exact ih rest hrest
        · rw [List.flatMap_cons, ih rest hrest]
          rfl
        · rw [List.flatMap_cons,
            ih (rest.dropWhile isUl) (le_trans (length_dropWhile_le _ _) hrest)]
          simp [renderBlock]
        · rw [List.flatMap_cons,
            ih (rest.dropWhile isOl) (le_trans (length_dropWhile_le _ _) hrest)]
          simp [renderBlock]
        · rw [List.flatMap_cons,
            ih (rest.dropWhile isPara) (le_trans (length_dropWhile_le _ _) hrest)]
          simp [renderBlock]
  exact H lines.length lines le_rfl

theorem filter_nonblank_run (p : List Char → Bool)
    (hp : ∀ l, p l = true → isBlank l = false) (rest : List (List Char)) :
    rest.filter (fun l => !isBlank l) =
      rest.takeWhile p ++ (rest.dropWhile p).filter (fun l => !isBlank l) := by
  conv_lhs => rw [← List.takeWhile_append_dropWhile (p := p) (l := rest)]
  rw [List.filter_append]
  congr 1
  rw [List.filter_eq_self]
  intro a ha
  simp [hp a (List.mem_takeWhile_imp ha)]

theorem blocks_partition (lines : List (List Char)) :
    (blocks lines).flatMap blockLines = lines.filter (fun l => !isBlank l) := by
  have H : ∀ n (ls : List (List Char)), ls.length ≤ n →
      (blocks ls).flatMap blockLines = ls.filter (fun l => !isBlank l) := by
    intro n
    induction n with
    | zero =>
      intro ls h
      have : ls = [] := by cases ls <;> simp_all
      subst this
      rfl
    | succ n ih =>
      intro ls h
      match ls with
      | [] => rfl
      | l :: rest =>
        simp only [List.length_cons] at h
        have hrest : rest.length ≤ n := by omega
        rw [blocks_cons]
        by_cases hb : isBlank l
        · rw [if_pos hb, List.filter_cons, if_neg (by simp [hb])]
          exact ih rest hrest
        · rw [if_neg hb, List.filter_cons,
            if_pos (show (!isBlank l) = true by simp [hb])]
          by_cases hh : startsWithHash l
          · rw [if_pos hh, List.flatMap_cons, ih rest hrest]
            rfl
          · rw [if_neg hh]
            by_cases hu : isUl l
            · rw [if_pos hu, List.flatMap_cons,
                ih (rest.dropWhile isUl) (le_trans (length_dropWhile_le _ _) hrest),
                filter_nonblank_run isUl (fun _ hx => isUl_not_blank hx) rest]
              simp [blockLines]
            · rw [if_neg hu]
              by_cases ho : isOl l
              · rw [if_pos ho, List.flatMap_cons,
                  ih (rest.dropWhile isOl) (le_trans (length_dropWhile_le _ _) hrest),
                  filter_nonblank_run isOl (fun _ hx => isOl_not_blank hx) rest]
                simp [blockLines]
              · rw [if_neg ho, List.flatMap_cons,
                  ih (rest.dropWhile isPara) (le_trans (length_dropWhile_le _ _) hrest),
                  filter_nonblank_run isPara (fun _ hx => isPara_not_blank hx) rest]
                simp [blockLines]
  exact H lines.length lines le_rfl

/-! ### Trigger-pattern occurrence and the identity property -/

/-- Predicate `hasPat o c l`: some position of `l` starts a match of `oo(.*?)cc` —
a doubled opener with a doubled closer reachable without crossing a
newline. -/
def hasPat (o c : Char) : List Char → Bool
  | [] => false
  | [_] => false
  | x :: y :: rest =>
    (x == o && y == o && (findClose c rest).isSome) || hasPat o c (y :: rest)

theorem subPatGo_id (o c : Char) (f : List Char → List Char) :
    ∀ fuel l, l.length ≤ fuel → hasPat o c l = false → subPatGo o c f fuel l = l := by
  intro fuel
  induction fuel with
  | zero =>
    intro l h1 h2
    have : l = [] := by cases l <;> simp_all
    subst this
    simp [subPatGo]
  | succ n ih =>
    intro l h1 h2
    match l with
    | [] => simp [subPatGo]
    | [x] => simp [subPatGo]
    | x :: y :: rest =>
      simp only [List.length_cons] at h1
      simp only [hasPat, Bool.or_eq_false_iff] at h2
      obtain ⟨h2a, h2b⟩ := h2
      simp only [subPatGo]
      split_ifs with hxy
      · cases hf : findClose c rest with
        | some pr =>
          exfalso
          rw [hxy.1, hxy.2, hf] at h2a
          simp at h2a
        | none =>
          simp only [hf]
          rw [ih (y :: rest) (by simp; omega) h2b]
      · rw [ih (y :: rest) (by simp; omega) h2b]

theorem subPat_id {o c : Char} {f : List Char → List Char} {l : List Char}
    (h : hasPat o c l = false) : subPat o c f l = l :=
  subPatGo_id o c f l.length l le_rfl h

/-! ### Run-shape lemmas for the parser -/

theorem run_split {α : Type} (p : α → Bool) (items rest : List α)
    (hall : ∀ l ∈ items, p l = true)
    (hstop : ∀ l, rest.head? = some l → p l = false) :
    (items ++ rest).takeWhile p = items ∧ (items ++ rest).dropWhile p = rest := by
  have htw : rest.takeWhile p = [] := by
    cases rest with
    | nil => rfl
    | cons r t => rw [List.takeWhile_cons_of_neg (by simp [hstop r rfl])]
  have hdw : rest.dropWhile p = rest := by
    cases rest with
    | nil => rfl
    | cons r t => rw [List.dropWhile_cons_of_neg (by simp [hstop r rfl])]
  constructor
  · rw [List.takeWhile_append_of_pos hall, htw, List.append_nil]
  · rw [List.dropWhile_append_of_pos hall, hdw]

theorem parse_run_ul (items rest : List (List Char)) (hne : items ≠ [])
    (hall : ∀ l ∈ items, isUl l = true)
    (hstop : ∀ l, rest.head? = some l → isUl l = false) :
    parse (items ++ rest) =
      "<ul>".data :: items.map mkListItem ++ "</ul>".data :: parse rest := by
  match items with
  | [] => exact absurd rfl hne
  | l :: items' =>
    have hl : isUl l = true := hall l (by simp)
    have hall' : ∀ x ∈ items', isUl x = true := fun x hx => hall x (by simp [hx])
    obtain ⟨htw, hdw⟩ := run_split isUl items' rest hall' hstop
    rw [List.cons_append, parse_cons,
      if_neg (by simp [isUl_not_blank hl]),
      if_neg (by simp [isUl_not_hash hl]),
      if_pos hl, htw, hdw]

theorem parse_run_ol (items rest : List (List Char)) (hne : items ≠ [])
    (hall : ∀ l ∈ items, isOl l = true)
    (hstop : ∀ l, rest.head? = some l → isOl l = false) :
    parse (items ++ rest) =
      "<ol>".data :: items.map mkListItem ++ "</ol>".data :: parse rest := by
  match items with
  | [] => exact absurd rfl hne
  | l :: items' =>
    have hl : isOl l = true := hall l (by simp)
    have hall' : ∀ x ∈ items', isOl x = true := fun x hx => hall x (by simp [hx])
    obtain ⟨htw, hdw⟩ := run_split isOl items' rest hall' hstop
    rw [List.cons_append, parse_cons,
      if_neg (by simp [isOl_not_blank hl]),
      if_neg (by simp [isOl_not_hash hl]),
      if_neg (by simp [isOl_not_ul hl]),
      if_pos hl, htw, hdw]

theorem parse_run_para (plines rest : List (List Char)) (hne : plines ≠ [])
    (hall : ∀ l ∈ plines, isPara l = true)
    (hstop : ∀ l, rest.head? = some l → isPara l = false) :
    parse (plines ++ rest) =
      "<p>".data :: paraBody plines ++ "</p>".data :: parse rest := by
  match plines with
  | [] => exact absurd rfl hne
  | l :: plines' =>
    have hl : isPara l = true := hall l (by simp)
    have hl' := hl
    simp only [isPara, Bool.and_eq_true, Bool.not_eq_true'] at hl'
    have hall' : ∀ x ∈ plines', isPara x = true := fun x hx => hall x (by simp [hx])
    obtain ⟨htw, hdw⟩ := run_split isPara plines' rest hall' hstop
    rw [List.cons_append, parse_cons,
      if_neg (by simp [hl'.1.1.1]),
      if_neg (by simp [hl'.1.1.2]),
      if_neg (by simp [hl'.1.2]),
      if_neg (by simp [hl'.2]),
      htw, hdw]

theorem parse_heading (l : List Char) (rest : List (List Char))
    (h : startsWithHash l = true) :
    parse (l :: rest) = convert_heading l :: parse rest := by
  rw [parse_cons, if_neg (by simp [hash_not_blank h]), if_pos h]

/-! ### Container-tag well-formedness of the fragment sequence -/

/-- Container-opening fragments: `<ul>`, `<ol>`, `<p>`. -/
def isOpenTag (f : List Char) : Bool :=
  f == "<ul>".data || f == "<ol>".data || f == "<p>".data

/-- Container-closing fragments: `</ul>`, `</ol>`, `</p>`. -/
def isCloseTag (f : List Char) : Bool :=
  f == "</ul>".data || f == "</ol>".data || f == "</p>".data

/-- Any container tag. -/
def isTag (f : List Char) : Bool := isOpenTag f || isCloseTag f

/-- The matching closer of an opening tag. -/
def closeOf (f : List Char) : List Char :=
  if f == "<ul>".data then "</ul>".data
  else if f == "<ol>".data then "</ol>".data
  else "</p>".data

/-- Checker state machine: outside a container (`none`) an opener may start
one and a stray closer is ill-formed; inside a container (`some o`, with `k`
content fragments so far) the matching closer must arrive, with `0 < k`,
before any other opener or closer (no nesting, no empty container); the end
of the sequence must not leave a container open. -/
def wfGo : Option (List Char) → Nat → List (List Char) → Bool
  | none, _, [] => true
  | some _, _, [] => false
  | none, _, f :: r =>
    if isOpenTag f then wfGo (some f) 0 r
    else if isCloseTag f then false
    else wfGo none 0 r
  | some o, k, f :: r =>
    if f == closeOf o then decide (0 < k) && wfGo none 0 r
    else if isOpenTag f || isCloseTag f then false
    else wfGo (some o) (k + 1) r

/-- Container well-formedness of a fragment sequence: every opened container
is closed (with at least one enclosed content fragment) before another
container opens, and nothing is left open at the end. -/
def wfFragments (frags : List (List Char)) : Bool := wfGo none 0 frags

theorem not_tag_of_second (x : Char) (t : List Char)
    (hu : x ≠ 'u') (ho : x ≠ 'o') (hp : x ≠ 'p') (hs : x ≠ '/') :
    isOpenTag ('<' :: x :: t) = false ∧ isCloseTag ('<' :: x :: t) = false := by
  constructor <;>
    simp [isOpenTag, isCloseTag,
      show "<ul>".data = ['<', 'u', 'l', '>'] from rfl,
      show "<ol>".data = ['<', 'o', 'l', '>'] from rfl,
      show "<p>".data = ['<', 'p', '>'] from rfl,
      show "</ul>".data = ['<', '/', 'u', 'l', '>'] from rfl,
      show "</ol>".data = ['<', '/', 'o', 'l', '>'] from rfl,
      show "</p>".data = ['<', '/', 'p', '>'] from rfl,
      hu, ho, hp, hs]

theorem convert_heading_shape (l : List Char) :
    ∃ t, convert_heading l = '<' :: 'h' :: t :=
  ⟨_, rfl⟩

theorem mkListItem_shape (l : List Char) :
    ∃ t, mkListItem l = '<' :: 'l' :: t :=
  ⟨_, rfl⟩

theorem wfGo_inside (o : List Char) :
    ∀ body k rest,
      (∀ f ∈ body, (f == closeOf o) = false ∧ isOpenTag f = false ∧
        isCloseTag f = false) →
      0 < k + body.length →
      wfGo (some o) k (body ++ closeOf o :: rest) = wfGo none 0 rest := by
  intro body
  induction body with
  | nil =>
    intro k rest _ hk
    simp only [List.length_nil, Nat.add_zero] at hk
    simp [wfGo, hk]
  | cons f body ih =>
    intro k rest hf hk
    obtain ⟨h1, h2, h3⟩ := hf f (by simp)
    simp only [List.cons_append, wfGo, h1, h2, h3]
    exact ih (k + 1) rest (fun g hg => hf g (by simp [hg])) (by omega)

/-- Fragments of a paragraph body are `<br/>` or transformed lines. -/
theorem mem_paraBody {f : List Char} :
    ∀ {ls : List (List Char)}, f ∈ paraBody ls →
      f = "<br/>".data ∨ ∃ l ∈ ls, f = convert_bold_emphasis l := by
  intro ls hf
  match ls with
  | [] => simp [paraBody] at hf
  | first :: rest =>
    simp only [paraBody, List.mem_cons, List.mem_flatMap] at hf
    rcases hf with rfl | ⟨l, hl, hfl⟩
    · exact Or.inr ⟨first, by simp, rfl⟩
    · have hfl' : f = "<br/>".data ∨ f = convert_bold_emphasis l := by simpa using hfl
      rcases hfl' with rfl | rfl
      · exact Or.inl rfl
      · exact Or.inr ⟨l, by simp [hl], rfl⟩

theorem wfGo_heading (l : List Char) (rest : List (List Char)) :
    wfGo none 0 (convert_heading l :: rest) = wfGo none 0 rest := by
  obtain ⟨t, ht⟩ := convert_heading_shape l
  obtain ⟨ho, hc⟩ :=
    not_tag_of_second 'h' t (by decide) (by decide) (by decide) (by decide)
  rw [ht]
  simp [wfGo, ho, hc]

theorem wfGo_ulist (items : List (List Char)) (hne : items ≠ [])
    (rest : List (List Char)) :
    wfGo none 0 (("<ul>".data :: items.map mkListItem ++ ["</ul>".data]) ++ rest) =
      wfGo none 0 rest := by
  have hshape : ("<ul>".data :: items.map mkListItem ++ ["</ul>".data]) ++ rest =
      "<ul>".data :: (items.map mkListItem ++ closeOf "<ul>".data :: rest) := by
    simp [show closeOf "<ul>".data = "</ul>".data from rfl]
  rw [hshape]
  have hopen : isOpenTag "<ul>".data = true := by decide
  simp only [wfGo, hopen, if_true]
  rw [wfGo_inside]
  · intro f hf
    obtain ⟨l, hl, rfl⟩ := List.mem_map.mp hf
    obtain ⟨t, ht⟩ := mkListItem_shape l
    rw [ht]
    obtain ⟨ho1, hc1⟩ :=
      not_tag_of_second 'l' t (by decide) (by decide) (by decide) (by decide)
    refine ⟨?_, ho1, hc1⟩
    simp [show closeOf "<ul>".data = ['<', '/', 'u', 'l', '>'] from rfl]
  · simpa using List.length_pos.mpr hne

theorem wfGo_olist (items : List (List Char)) (hne : items ≠ [])
    (rest : List (List Char)) :
    wfGo none 0 (("<ol>".data :: items.map mkListItem ++ ["</ol>".data]) ++ rest) =
      wfGo none 0 rest := by
  have hshape : ("<ol>".data :: items.map mkListItem ++ ["</ol>".data]) ++ rest =
      "<ol>".data :: (items.map mkListItem ++ closeOf "<ol>".data :: rest) := by
    simp [show closeOf "<ol>".data = "</ol>".data from rfl]
  rw [hshape]
  have hopen : isOpenTag "<ol>".data = true := by decide
  simp only [wfGo, hopen, if_true]
  rw [wfGo_inside]
  · intro f hf
    obtain ⟨l, hl, rfl⟩ := List.mem_map.mp hf
    obtain ⟨t, ht⟩ := mkListItem_shape l
    rw [ht]
    obtain ⟨ho1, hc1⟩ :=
      not_tag_of_second 'l' t (by decide) (by decide) (by decide) (by decide)
    refine ⟨?_, ho1, hc1⟩
    simp [show closeOf "<ol>".data = ['<', '/', 'o', 'l', '>'] from rfl]
  · simpa using List.length_pos.mpr hne

theorem wfGo_para (ls : List (List Char)) (hne : ls ≠ [])
    (hcontent : ∀ l ∈ ls, isTag (convert_bold_emphasis l) = false)
    (rest : List (List Char)) :
    wfGo none 0 (("<p>".data :: paraBody ls ++ ["</p>".data]) ++ rest) =
      wfGo none 0 rest := by
  have hshape : ("<p>".data :: paraBody ls ++ ["</p>".data]) ++ rest =
      "<p>".data :: (paraBody ls ++ closeOf "<p>".data :: rest) := by
    simp [show closeOf "<p>".data = "</p>".data from rfl]
  rw [hshape]
  have hopen : isOpenTag "<p>".data = true := by decide
  simp only [wfGo, hopen, if_true]
  rw [wfGo_inside]
  · intro f hf
    rcases mem_paraBody hf with rfl | ⟨l, hl, rfl⟩
    · refine ⟨?_, ?_, ?_⟩
      · decide
      · decide
      · decide
    · have htag := hcontent l hl
      simp only [isTag, Bool.or_eq_false_iff] at htag
      refine ⟨?_, htag.1, htag.2⟩
      by_cases hq : convert_bold_emphasis l = "</p>".data
      · exfalso
        have : isCloseTag (convert_bold_emphasis l) = true := by
          rw [hq]; decide
        rw [htag.2] at this
        exact absurd this (by simp)
      · simp [show closeOf "<p>".data = "</p>".data from rfl, hq]
  · match ls with
    | [] => exact absurd rfl hne
    | x :: xs => simp [paraBody]

theorem wf_parse (lines : List (List Char))
    (hcontent : ∀ l ∈ lines, isPara l = true →
      isTag (convert_bold_emphasis l) = false) :
    wfFragments (parse lines) = true := by
  have H : ∀ n (ls : List (List Char)), ls.length ≤ n →
      (∀ l ∈ ls, isPara l = true → isTag (convert_bold_emphasis l) = false) →
      wfGo none 0 (parse ls) = true := by
    intro n
    induction n with
    | zero =>
      intro ls h _
      have : ls = [] := by cases ls <;> simp_all
      subst this
      rfl
    | succ n ih =>
      intro ls h hc
      match ls with
      | [] => rfl
      | l :: rest =>
        simp only [List.length_cons] at h
        have hrest : rest.length ≤ n := by omega
        have hcrest : ∀ x ∈ rest, isPara x = true →
            isTag (convert_bold_emphasis x) = false :=
          fun x hx => hc x (by simp [hx])
        rw [parse_cons]
        by_cases hb : isBlank l
        · rw [if_pos hb]
          exact ih rest hrest hcrest
        · rw [if_neg hb]
          by_cases hh : startsWithHash l
          · rw [if_pos hh, wfGo_heading]
            exact ih rest hrest hcrest
          · rw [if_neg hh]
            by_cases hu : isUl l
            · rw [if_pos hu]
              rw [show "<ul>".data :: (l :: rest.takeWhile isUl).map mkListItem ++
                  "</ul>".data :: parse (rest.dropWhile isUl) =
                  ("<ul>".data :: (l :: rest.takeWhile isUl).map mkListItem ++
                    ["</ul>".data]) ++ parse (rest.dropWhile isUl) by simp]
              rw [wfGo_ulist _ (by simp)]
              exact ih (rest.dropWhile isUl)
                (le_trans (length_dropWhile_le _ _) hrest)
                (fun x hx => hcrest x ((List.dropWhile_sublist _).subset hx))
            · rw [if_neg hu]
              by_cases ho : isOl l
              · rw [if_pos ho]
                rw [show "<ol>".data :: (l :: rest.takeWhile isOl).map mkListItem ++
                    "</ol>".data :: parse (rest.dropWhile isOl) =
                    ("<ol>".data :: (l :: rest.takeWhile isOl).map mkListItem ++
                      ["</ol>".data]) ++ parse (rest.dropWhile isOl) by simp]
                rw [wfGo_olist _ (by simp)]
                exact ih (rest.dropWhile isOl)
                  (le_trans (length_dropWhile_le _ _) hrest)
                  (fun x hx => hcrest x ((List.dropWhile_sublist _).subset hx))
              · rw [if_neg ho]
                have hb' : isBlank l = false := by simpa using hb
                have hh' : startsWithHash l = false := by simpa using hh
                have hu' : isUl l = false := by simpa using hu
                have ho' : isOl l = false := by simpa using ho
                have hpl : isPara l = true := by simp [isPara, hb', hh', hu', ho']
                rw [show "<p>".data :: paraBody (l :: rest.takeWhile isPara) ++
                    "</p>".data :: parse (rest.dropWhile isPara) =
                    ("<p>".data :: paraBody (l :: rest.takeWhile isPara) ++
                      ["</p>".data]) ++ parse (rest.dropWhile isPara) by simp]
                rw [wfGo_para _ (by simp)]
                · exact ih (rest.dropWhile isPara)
                    (le_trans (length_dropWhile_le _ _) hrest)
                    (fun x hx => hcrest x ((List.dropWhile_sublist _).subset hx))
                · intro x hx
                  rcases List.mem_cons.mp hx with rfl | hx'
                  · exact hc x (by simp) hpl
                  · exact hcrest x ((List.takeWhile_sublist _).subset hx') (List.mem_takeWhile_imp hx')
  exact H lines.length lines le_rfl hcontent

/-- The lines grouped into list blocks all carry the corresponding
two-character prefix. -/
theorem blocks_run_pred (lines : List (List Char)) :
    (∀ items, Block.ulist items ∈ blocks lines → ∀ l ∈ items, isUl l = true) ∧
    (∀ items, Block.olist items ∈ blocks lines → ∀ l ∈ items, isOl l = true) := by
  have H : ∀ n (ls : List (List Char)), ls.length ≤ n →
      (∀ items, Block.ulist items ∈ blocks ls → ∀ l ∈ items, isUl l = true) ∧
      (∀ items, Block.olist items ∈ blocks ls → ∀ l ∈ items, isOl l = true) := by
    intro n
    induction n with
    | zero =>
      intro ls h
      have : ls = [] := by cases ls <;> simp_all
      subst this
      constructor <;> intro items him <;> simp [blocks_nil] at him
    | succ n ih =>
      intro ls h
      match ls with
      | [] => constructor <;> intro items him <;> simp [blocks_nil] at him
      | l :: rest =>
        simp only [List.length_cons] at h
        have hrest : rest.length ≤ n := by omega
        rw [blocks_cons]
        by_cases hb : isBlank l
        · rw [if_pos hb]
          exact ih rest hrest
        · rw [if_neg hb]
          by_cases hh : startsWithHash l
          · rw [if_pos hh]
            constructor <;> intro items him <;>
              rcases List.mem_cons.mp him with heq | htail
            · exact absurd heq (by simp)
            · exact (ih rest hrest).1 items htail
            · exact absurd heq (by simp)
            · exact (ih rest hrest).2 items htail
          · rw [if_neg hh]
            by_cases hu : isUl l
            · rw [if_pos hu]
              have ihd := ih (rest.dropWhile isUl)
                (le_trans (length_dropWhile_le _ _) hrest)
              constructor <;> intro items him <;>
                rcases List.mem_cons.mp him with heq | htail
              · cases heq
                intro x hx
                rcases List.mem_cons.mp hx with rfl | hx'
                · exact hu
                · exact List.mem_takeWhile_imp hx'
              · exact ihd.1 items htail
              · exact absurd heq (by simp)
              · exact ihd.2 items htail
            · rw [if_neg hu]
              by_cases ho : isOl l
              · rw [if_pos ho]
                have ihd := ih (rest.dropWhile isOl)
                  (le_trans (length_dropWhile_le _ _) hrest)
                constructor <;> intro items him <;>
                  rcases List.mem_cons.mp him with heq | htail
                · exact absurd heq (by simp)
                · exact ihd.1 items htail
                · cases heq
                  intro x hx
                  rcases List.mem_cons.mp hx with rfl | hx'
                  · exact ho
                  · exact List.mem_takeWhile_imp hx'
                · exact ihd.2 items htail
              · rw [if_neg ho]
                have ihd := ih (rest.dropWhile isPara)
                  (le_trans (length_dropWhile_le _ _) hrest)
                constructor <;> intro items him <;>
                  rcases List.mem_cons.mp him with heq | htail
                · exact absurd heq (by simp)
                · exact ihd.1 items htail
                · exact absurd heq (by simp)
                · exact ihd.2 items htail
  exact H lines.length lines le_rfl

/-! ### I/O model of `convert_markdown_to_html` (lines 51–135)

The whole body runs inside one `try`.  The input is read first; a read
failure raises before the output file is ever opened, and the handler prints
a diagnostic and exits 1.  On a successful read the fragments are computed
and then written one per line in a loop (lines 129–131); `failAt = some k`
models an I/O failure at the `k`-th write, after which the handler exits 1
leaving the already-written `k` lines in the destination.  The result is
(destination contents, `none` when the file was never created; success
flag). -/
def convert_markdown_to_html (readRes : Except String (List (List Char)))
    (failAt : Option Nat) : Option (List (List Char)) × Bool :=
  match readRes with
  | .error _ => (none, false)
  | .ok lines =>
    let frags := parse lines
    match failAt with
    | none => (some frags, true)
    | some k =>
      if k < frags.length then (some (frags.take k), false) else (some frags, true)

/-! ### Argument validation of `main` (lines 24–30) -/

/-- Outcome of command-line validation. -/
inductive ArgCheck where
  | usageError
  | run (input output : String)
deriving DecidableEq

/-- Lines 24–30: `if len(sys.argv) < 3` prints the usage message and exits 1;
otherwise `markdown_file = sys.argv[1]` and `output_file = sys.argv[2]`, and
no later argument is ever read. -/
def checkArgs : List String → ArgCheck
  | _ :: a :: b :: _ => .run a b
  | _ => .usageError

/-! ### Prefix facts for indented lines -/

theorem isUl_cons_false {x : Char} (t : List Char) (hx : x ≠ '-') :
    isUl (x :: t) = false := by
  cases t <;> simp [isUl, startsWith2, hx]

theorem isOl_cons_false {x : Char} (t : List Char) (hx : x ≠ '*') :
    isOl (x :: t) = false := by
  cases t <;> simp [isOl, startsWith2, hx]

theorem hash_cons_false {x : Char} (t : List Char) (hx : x ≠ '#') :
    startsWithHash (x :: t) = false := by
  simp [startsWithHash, hx]

theorem pyWhitespace_chars {x : Char} (hx : pyWhitespace x = true) :
    x ≠ '-' ∧ x ≠ '*' ∧ x ≠ '#' := by
  simp only [pyWhitespace, Bool.or_eq_true, beq_iff_eq] at hx
  rcases hx with ((((rfl | rfl) | rfl) | rfl) | rfl) | rfl <;>
    exact ⟨by decide, by decide, by decide⟩

theorem isUl_shape {l : List Char} (h : isUl l = true) : ∃ t, l = '-' :: ' ' :: t := by
  match l with
  | [] => simp [isUl, startsWith2] at h
  | [x] => simp [isUl, startsWith2] at h
  | x :: y :: t =>
    simp only [isUl, startsWith2, Bool.and_eq_true, beq_iff_eq] at h
    exact ⟨t, by rw [h.1, h.2]⟩

theorem isOl_shape {l : List Char} (h : isOl l = true) : ∃ t, l = '*' :: ' ' :: t := by
  match l with
  | [] => simp [isOl, startsWith2] at h
  | [x] => simp [isOl, startsWith2] at h
  | x :: y :: t =>
    simp only [isOl, startsWith2, Bool.and_eq_true, beq_iff_eq] at h
    exact ⟨t, by rw [h.1, h.2]⟩

/-! ## The claims -/

/-- Claim C1: for every input string, `transform` equals the result of applying,
in this exact order, the four global non-greedy replacements: `[[inner]]` →
lowercase hex MD5 digest of `inner`'s bytes, `((inner))` → `inner` with every
ASCII `c`/`C` deleted (others kept in order), `**inner**` → `<b>inner</b>`,
`__inner__` → `<em>inner</em>`, each later rule operating on the output of
the earlier ones; in particular `transform "[[Hello]]"` is the 32-character
lowercase hex MD5 of the bytes `"Hello"` and `transform "((Core))" = "ore"`. -/
theorem C1_inline_rule_order :
    (∀ t : List Char,
      convert_bold_emphasis t = subEm (subBold (subParens (subMd5 t)))) ∧
    (∀ inner : List Char, md5_replace inner = md5Hex inner) ∧
    (∀ inner : List Char, remove_c inner =
      inner.filter (fun ch => !(ch == 'c' || ch == 'C'))) ∧
    transform "[[Hello]]" = "8b1a9953c4611296a827abf8c47804d7" ∧
    transform "((Core))" = "ore" ∧
    transform "**inner**" = "<b>inner</b>" ∧
    transform "__inner__" = "<em>inner</em>" ∧
    transform "**a** and **b**" = "<b>a</b> and <b>b</b>" ∧
    transform "((**c**))" = "<b></b>" :=
  ⟨fun _ => rfl, fun _ => rfl, fun _ => rfl,
    by set_option maxRecDepth 10000 in decide, by decide, by decide, by decide,
    by decide, by decide⟩

/-- Claim C2: a maximal run of consecutive `"- "`-prefixed lines is emitted as
`<ul>`, one `<li>{text}</li>` per line (text = the line with its 2-character
prefix dropped, stripped, inline-transformed), then `</ul>`; a maximal run of
`"* "`-prefixed lines is emitted the same way with `<ol>`/`</ol>`; in
particular `["* a", "* b"]` yields exactly
`["<ol>", "<li>a</li>", "<li>b</li>", "</ol>"]`. -/
theorem C2_list_runs :
    (∀ items rest, items ≠ [] → (∀ l ∈ items, isUl l = true) →
      (∀ l, rest.head? = some l → isUl l = false) →
      parse (items ++ rest) =
        "<ul>".data :: items.map mkListItem ++ "</ul>".data :: parse rest) ∧
    (∀ items rest, items ≠ [] → (∀ l ∈ items, isOl l = true) →
      (∀ l, rest.head? = some l → isOl l = false) →
      parse (items ++ rest) =
        "<ol>".data :: items.map mkListItem ++ "</ol>".data :: parse rest) ∧
    (∀ l, mkListItem l =
      "<li>".data ++ convert_bold_emphasis (pyStrip (l.drop 2)) ++ "</li>".data) ∧
    parseLines ["- a", "- b"] = ["<ul>", "<li>a</li>", "<li>b</li>", "</ul>"] ∧
    parseLines ["* a", "* b"] = ["<ol>", "<li>a</li>", "<li>b</li>", "</ol>"] :=
  ⟨parse_run_ul, parse_run_ol, fun _ => rfl, by decide, by decide⟩

theorem C2_witness :
    parse (["- a".data, "- b".data] ++ ["x".data]) =
      "<ul>".data :: ["- a".data, "- b".data].map mkListItem ++
        "</ul>".data :: parse ["x".data] :=
  C2_list_runs.1 ["- a".data, "- b".data] ["x".data] (by decide) (by decide)
    (by intro l hl; simp only [List.head?_cons, Option.some.injEq] at hl
        subst hl; decide)

/-- Claim C3: a line starting with `#` characters is emitted as exactly
`<h{level}>{text}</h{level}>`, where `level` is the count of consecutive
leading `#` characters with no clamp (eight markers yield a level-8 tag) and
`text` is the remainder with leading `#` and surrounding whitespace trimmed,
then inline-transformed; the line `"#"` yields `<h1></h1>`. -/
theorem C3_heading :
    (∀ l rest, startsWithHash l = true →
      parse (l :: rest) = convert_heading l :: parse rest) ∧
    (∀ l : List Char, convert_heading l =
      "<h".data ++ (toString (countHash l)).data ++ ">".data ++
        convert_bold_emphasis (pyStrip (l.drop (countHash l))) ++
        "</h".data ++ (toString (countHash l)).data ++ ">".data) ∧
    parseLines ["######## x"] = ["<h8>x</h8>"] ∧
    parseLines ["#"] = ["<h1></h1>"] :=
  ⟨parse_heading, fun _ => rfl, by decide, by decide⟩

theorem C3_witness :
    parse ["# Title".data] = convert_heading "# Title".data :: parse [] :=
  C3_heading.1 "# Title".data [] (by decide)

/-- Claim C4: a maximal run of consecutive non-blank lines that start with none
of `#`, `"- "`, `"* "` is emitted as `<p>`, the first line's transformed
text, then `<br/>` followed by the transformed text for each later line of
the run, then `</p>`; in particular `["line one", "line two"]` yields exactly
`["<p>", "line one", "<br/>", "line two", "</p>"]`. -/
theorem C4_paragraph_runs :
    (∀ plines rest, plines ≠ [] → (∀ l ∈ plines, isPara l = true) →
      (∀ l, rest.head? = some l → isPara l = false) →
      parse (plines ++ rest) =
        "<p>".data :: paraBody plines ++ "</p>".data :: parse rest) ∧
    (∀ first rest, paraBody (first :: rest) =
      convert_bold_emphasis first ::
        rest.flatMap (fun l => ["<br/>".data, convert_bold_emphasis l])) ∧
    parseLines ["line one", "line two"] =
      ["<p>", "line one", "<br/>", "line two", "</p>"] :=
  ⟨parse_run_para, fun _ _ => rfl, by decide⟩

theorem C4_witness :
    parse (["line one".data, "line two".data] ++ []) =
      "<p>".data :: paraBody ["line one".data, "line two".data] ++
        "</p>".data :: parse [] :=
  C4_paragraph_runs.1 ["line one".data, "line two".data] [] (by decide)
    (by decide) (by intro l hl; simp at hl)

/-- Claim C5, as amended: a failed read leaves the destination untouched and
exits with a diagnostic; a successful run writes the full fragment list; but
an I/O failure at the `k`-th write of the output loop leaves exactly the
first `k` fragments in the destination — a processing failure during the
write phase can leave a partially written output file. -/
theorem C5_write_phase :
    (∀ e failAt, convert_markdown_to_html (.error e) failAt = (none, false)) ∧
    (∀ lines, convert_markdown_to_html (.ok lines) none =
      (some (parse lines), true)) ∧
    (∀ lines k, k < (parse lines).length →
      convert_markdown_to_html (.ok lines) (some k) =
        (some ((parse lines).take k), false)) ∧
    (∀ lines k, (parse lines).length ≤ k →
      convert_markdown_to_html (.ok lines) (some k) =
        (some (parse lines), true)) := by
  refine ⟨fun e failAt => rfl, fun lines => rfl,
    fun lines k hk => ?_, fun lines k hk => ?_⟩
  · simp [convert_markdown_to_html, hk]
  · simp [convert_markdown_to_html, Nat.not_lt.mpr hk]

theorem C5_witness :
    convert_markdown_to_html (.ok ["hello".data]) (some 1) =
      (some ((parse ["hello".data]).take 1), false) :=
  C5_write_phase.2.2.1 ["hello".data] 1 (by decide)

/-- Claim C5, counterexample: an invocation whose write loop fails at the second
write aborts (success flag `false`) yet leaves one fragment — `["<p>"]`,
neither nothing nor the full three-fragment output — in the destination. -/
theorem C5_counterexample :
    (convert_markdown_to_html (.ok ["hello".data]) (some 1)).2 = false ∧
    (convert_markdown_to_html (.ok ["hello".data]) (some 1)).1 =
      some ["<p>".data] ∧
    some ["<p>".data] ≠ (none : Option (List (List Char))) ∧
    some ["<p>".data] ≠ some ([] : List (List Char)) ∧
    (convert_markdown_to_html (.ok ["hello".data]) none).1 =
      some ["<p>".data, "hello".data, "</p>".data] := by
  decide

/-- Claim C6: the parser consumes every line exactly once in order — its output
is exactly the concatenated renderings of its block decomposition, and the
lines of the blocks are exactly the non-blank input lines in order; blank
lines belong to no block and so contribute nothing to the output. -/
theorem C6_line_conservation :
    (∀ lines, parse lines = (blocks lines).flatMap renderBlock) ∧
    (∀ lines, (blocks lines).flatMap blockLines =
      lines.filter (fun l => !isBlank l)) :=
  ⟨parse_eq_blocks, blocks_partition⟩

/-- Claim C7: the inline transformer is the identity on text free of the four
trigger patterns `[[…]]`, `((…))`, `**…**`, `__…__`. -/
theorem C7_transform_identity (s : String)
    (h1 : hasPat '[' ']' s.data = false) (h2 : hasPat '(' ')' s.data = false)
    (h3 : hasPat '*' '*' s.data = false) (h4 : hasPat '_' '_' s.data = false) :
    transform s = s := by
  unfold transform convert_bold_emphasis subMd5 subParens subBold subEm
  rw [subPat_id h1, subPat_id h2, subPat_id h3, subPat_id h4]

theorem C7_witness : transform "plain *text* [x] (y)" = "plain *text* [x] (y)" :=
  C7_transform_identity "plain *text* [x] (y)" (by decide) (by decide)
    (by decide) (by decide)

/-- Claim C8: list classification tests the literal 2-character prefix without
trimming: a line whose `"- "`/`"* "` marker is preceded by non-empty
whitespace is not a list line but paragraph content, rendered inside
`<p>…</p>`; and every line rendered as a list item in some block does carry
the untrimmed `"- "`/`"* "` prefix; e.g. `["- a", "  - b"]` renders the
indented line as a paragraph, not an `<li>`. -/
theorem C8_indented_list_marker :
    (∀ ws l, ws ≠ [] → (∀ ch ∈ ws, pyWhitespace ch = true) →
      (isUl l = true ∨ isOl l = true) →
      isUl (ws ++ l) = false ∧ isOl (ws ++ l) = false ∧
      isPara (ws ++ l) = true ∧
      parse [ws ++ l] =
        ["<p>".data, convert_bold_emphasis (ws ++ l), "</p>".data]) ∧
    (∀ lines items, Block.ulist items ∈ blocks lines →
      ∀ l ∈ items, isUl l = true) ∧
    (∀ lines items, Block.olist items ∈ blocks lines →
      ∀ l ∈ items, isOl l = true) ∧
    parseLines ["- a", "  - b"] =
      ["<ul>", "<li>a</li>", "</ul>", "<p>", "  - b", "</p>"] := by
  refine ⟨?_, fun lines => (blocks_run_pred lines).1,
    fun lines => (blocks_run_pred lines).2, by decide⟩
  intro ws l hne hws hl
  match ws with
  | [] => exact absurd rfl hne
  | c :: ws' =>
    obtain ⟨hc1, hc2, hc3⟩ := pyWhitespace_chars (hws c (by simp))
    simp only [List.cons_append]
    have hUl : isUl (c :: (ws' ++ l)) = false := isUl_cons_false _ hc1
    have hOl : isOl (c :: (ws' ++ l)) = false := isOl_cons_false _ hc2
    have hHash : startsWithHash (c :: (ws' ++ l)) = false := hash_cons_false _ hc3
    have hmem : ∃ x, x ∈ c :: (ws' ++ l) ∧ pyWhitespace x = false := by
      rcases hl with h | h
      · obtain ⟨t, rfl⟩ := isUl_shape h
        exact ⟨'-', by simp, by decide⟩
      · obtain ⟨t, rfl⟩ := isOl_shape h
        exact ⟨'*', by simp, by decide⟩
    obtain ⟨x, hx1, hx2⟩ := hmem
    have hblank : isBlank (c :: (ws' ++ l)) = false :=
      isBlank_eq_false_of_mem hx1 hx2
    have hPara : isPara (c :: (ws' ++ l)) = true := by
      simp [isPara, hUl, hOl, hHash, hblank]
    refine ⟨hUl, hOl, hPara, ?_⟩
    have hrun := parse_run_para [c :: (ws' ++ l)] [] (by simp)
      (by intro y hy; simp only [List.mem_singleton] at hy; subst hy; exact hPara)
      (by intro y hy; simp at hy)
    simpa [paraBody] using hrun

theorem C8_witness :
    isUl (" ".data ++ "- b".data) = false ∧ isOl (" ".data ++ "- b".data) = false ∧
    isPara (" ".data ++ "- b".data) = true ∧
    parse [" ".data ++ "- b".data] =
      ["<p>".data, convert_bold_emphasis (" ".data ++ "- b".data), "</p>".data] :=
  C8_indented_list_marker.1 " ".data "- b".data (by decide) (by decide)
    (Or.inl (by decide))

/-- Claim C9, as amended: the fragment sequence is container-well-formed —
every emitted `<ul>`/`<ol>`/`<p>` container is closed by its matching closer
before another container opens, encloses at least one content fragment, and
nothing is left open at the end — provided no paragraph line's transformed
text is itself one of the six container-tag strings (without that proviso a
paragraph line such as `"<ul>"` is copied verbatim into the output and
breaks the string-level property). -/
theorem C9_container_wellformed (lines : List (List Char))
    (hcontent : ∀ l ∈ lines, isPara l = true →
      isTag (convert_bold_emphasis l) = false) :
    wfFragments (parse lines) = true :=
  wf_parse lines hcontent

theorem C9_witness :
    wfFragments (parse ["# t".data, "- a".data, "x".data]) = true :=
  C9_container_wellformed ["# t".data, "- a".data, "x".data] (by decide)

/-- Claim C9, counterexample: on input `["<ul>"]` the output is
`["<p>", "<ul>", "</p>"]`: it contains a `<ul>` fragment that is never
followed by a `</ul>` fragment (and a container opener appears inside the
open `<p>` container), so the claim fails as stated for this input. -/
theorem C9_counterexample :
    parse ["<ul>".data] = ["<p>".data, "<ul>".data, "</p>".data] ∧
    "<ul>".data ∈ parse ["<ul>".data] ∧
    "</ul>".data ∉ parse ["<ul>".data] ∧
    wfFragments (parse ["<ul>".data]) = false := by
  decide

/-- Claim C10: with at least two positional arguments (three entries of
`sys.argv`) there is no usage error and everything past the second positional
argument is ignored — the check behaves exactly as on the first three
entries; the usage error occurs exactly when fewer than two positional
arguments are supplied. -/
theorem C10_extra_args_ignored :
    (∀ argv : List String, 3 ≤ argv.length →
      checkArgs argv ≠ .usageError ∧ checkArgs argv = checkArgs (argv.take 3)) ∧
    (∀ (p a b : String) (rest : List String),
      checkArgs (p :: a :: b :: rest) = .run a b) ∧
    (∀ argv : List String, argv.length < 3 → checkArgs argv = .usageError) := by
  refine ⟨?_, fun p a b rest => rfl, ?_⟩
  · intro argv h
    match argv with
    | [] => simp at h
    | [_] => simp at h
    | [_, _] => simp at h
    | p :: a :: b :: rest =>
      exact ⟨fun hcontra => ArgCheck.noConfusion hcontra, rfl⟩
  · intro argv h
    match argv with
    | [] => rfl
    | [_] => rfl
    | [_, _] => rfl
    | _ :: _ :: _ :: _ => simp only [List.length_cons] at h; omega

theorem C10_witness :
    checkArgs ["./markdown2html.py", "README.md", "README.html", "extra"] ≠
        .usageError ∧
    checkArgs ["./markdown2html.py", "README.md", "README.html", "extra"] =
      checkArgs (["./markdown2html.py", "README.md", "README.html",
        "extra"].take 3) :=
  C10_extra_args_ignored.1 ["./markdown2html.py", "README.md", "README.html",
    "extra"] (by decide)

end Md2Html
